import Mathlib

/-!
# RecSys (amazon-dsstne): `Utils.h` helpers and the CIFAR-10 converter `dparse.cpp`

A shallow embedding of

* `rand(int, int)` of `src/amazon/dsstne/utils/Utils.h`,
* `split` (both overloads) and the two read/write passes of `main` of
  `samples/cifar-10/dparse.cpp`,
* `topKsort`, declared in `Utils.h`,

followed by the properties proved about them.

Conventions: a `uint32_t`/`size_t` is a `Nat` reduced `% 2^32` / `% 2^64` where the
C++ expression is evaluated in that type, an `int` is an `Int` wrapped by `wrapInt32`,
a byte is a `Fin 256`, a `std::string` is a `List Char`, a `std::vector` is a `List`.
-/

set_option autoImplicit false

/-! ## `Utils.h`: `rand(int min, int max)` -/

namespace Utils

/-- The value of the mathematical integer `x` as a 32-bit two's-complement `int`. -/
def wrapInt32 (x : Int) : Int := (x + 2 ^ 31) % 2 ^ 32 - 2 ^ 31

/-- Smallest `int`. -/
def INT_MIN : Int := -(2 ^ 31)

/-- Largest `int`. -/
def INT_MAX : Int := 2 ^ 31 - 1

/-- The function
`inline int rand(int min, int max) { return rand() % (max - min + 1) + min; }`
(Utils.h 121-123, under the comment "min max - inclusive").  `r` is the value the call of the C library `rand()` returned.
Every `int` operation wraps to 32 bits; `%` is the truncating remainder of C++, and
a zero divisor (no result in C++) gives `none`. -/
def rand (r min max : Int) : Option Int :=
  let divisor := wrapInt32 (wrapInt32 (max - min) + 1)
  if divisor = 0 then none
  else some (wrapInt32 (Int.tmod r divisor + min))

/-! ## `Utils.h`: `topKsort` -/

/-- The failure conditions of `topKsort`. -/
inductive TopKError where
  | InvalidArgument
deriving DecidableEq, Repr

/-- Modelled from the spec: the body of `topKsort`.  `Utils.h` (115-117) only declares
`void topKsort(Tkey* keys, Tval* vals, const int size, Tkey* topKkeys, Tval* topKvals,
const int topK, const bool sortByKey = true)` under the comment "sort top K by keys
and return top keys with top values"; the definition is in a translation unit that is
not part of this development.

What the declaration fixes: the two arrays come as pointers with the one count
`size` for both, so the function reads entries `0 .. size - 1` of each and has no way
to see how long either array is; `keys` and `vals` below are the memory behind the two
pointers, and of these lists only the first `size` entries are looked at.  There is
no direction parameter: the ranking is largest first, the default of the spec.  The
result holds what is written to `topKkeys` and `topKvals`.

What the spec adds (3, 4.1, 7, 9): a negative `size` or `topK` is an
`InvalidArgument` failure, with no output; `topK > size` is clamped
(`k' = min(k, n)`); the entries with the largest keys are selected, ties going to the
entry first in the input (the stable policy the spec recommends), and come out in
ranked order, best first.  Values are an unconstrained, opaque payload that is never
compared, only copied along with its key, so `Tval` carries no order here; the output
is then ranked by key under either setting of `sortByKey`, and both settings select
the same entries. -/
def topKsort {Tkey Tval : Type} [LinearOrder Tkey]
    (keys : List Tkey) (vals : List Tval) (size : Int) (topK : Int) (sortByKey : Bool) :
    Except TopKError (List Tkey × List Tval) :=
  if size < 0 ∨ topK < 0 then
    Except.error TopKError.InvalidArgument
  else
    let entries := (keys.zip vals).take size.toNat
    let ranked := entries.insertionSort (fun a b => a.1 ≥ b.1)
    let selection := ranked.take topK.toNat
    match sortByKey with
    | true => Except.ok (selection.map Prod.fst, selection.map Prod.snd)
    | false => Except.ok (selection.map Prod.fst, selection.map Prod.snd)

/-- The first `size` entries ranked by key, largest first, equal keys in input
order. -/
def rankedEntries {Tkey Tval : Type} [LinearOrder Tkey]
    (keys : List Tkey) (vals : List Tval) (size : Int) : List (Tkey × Tval) :=
  ((keys.zip vals).take size.toNat).insertionSort (fun a b => a.1 ≥ b.1)

/-- The entries `topKsort` writes when neither count is negative. -/
def selected {Tkey Tval : Type} [LinearOrder Tkey]
    (keys : List Tkey) (vals : List Tval) (size topK : Int) : List (Tkey × Tval) :=
  (rankedEntries keys vals size).take topK.toNat

instance byKeyTotal {Tkey Tval : Type} [LinearOrder Tkey] :
    IsTotal (Tkey × Tval) (fun a b => a.1 ≥ b.1) :=
  ⟨fun a b => le_total b.1 a.1⟩

instance byKeyTrans {Tkey Tval : Type} [LinearOrder Tkey] :
    IsTrans (Tkey × Tval) (fun a b => a.1 ≥ b.1) :=
  ⟨fun _ _ _ h1 h2 => le_trans h2 h1⟩

end Utils

/-! ## `dparse.cpp`: `split` -/

namespace Dparse

/-- State of the `std::stringstream ss(s)`: the characters not yet extracted and the
two state bits the loop depends on. -/
structure StringStream where
  rest : List Char
  eofbit : Bool
  failbit : Bool
deriving DecidableEq, Repr

/-- The extraction phase of `std::getline(ss, item, delim)` on the unread characters:
characters are appended to the item until the end of the buffer is reached (third
component `true`: `eofbit`) or the next character is `delim`, which is extracted and
dropped.  Result: (item, characters left, end of buffer reached). -/
def extract (delim : Char) : List Char → List Char × List Char × Bool
  | [] => ([], [], true)
  | c :: cs =>
    if c = delim then ([], cs, false)
    else
      let r := extract delim cs
      (c :: r.1, r.2.1, r.2.2)

/-- The call `std::getline(ss, item, delim)`.  When the stream is not good the sentry sets
`failbit` and `item` is left as it was; otherwise `item` is erased and filled by
`extract`, and `failbit` is set when nothing at all was extracted. -/
def getline (ss : StringStream) (item : List Char) (delim : Char) :
    StringStream × List Char :=
  if ss.eofbit || ss.failbit then ({ ss with failbit := true }, item)
  else
    match ss.rest with
    | [] => ({ rest := [], eofbit := true, failbit := true }, [])
    | c :: cs =>
      let r := extract delim (c :: cs)
      ({ rest := r.2.1, eofbit := r.2.2, failbit := false }, r.1)

/-- The loop `while (std::getline(ss, item, delim)) { elems.push_back(item); }`
(dparse.cpp 38-40).  It ends when `getline` leaves the stream failed. -/
def splitLoop (ss : StringStream) (item : List Char) (delim : Char)
    (elems : List (List Char)) : List (List Char) :=
  if _h : (getline ss item delim).1.failbit = true then elems
  else
    splitLoop (getline ss item delim).1 (getline ss item delim).2 delim
      (elems ++ [(getline ss item delim).2])
termination_by ss.rest.length
decreasing_by
  have key : ∀ l : List Char, (extract delim l).2.1.length ≤ l.length := by
    intro l
    induction l with
    | nil => simp [extract]
    | cons c cs ih =>
      by_cases hc : c = delim
      · simp [extract, hc]
      · simp only [extract, hc, if_false, List.length_cons]
        omega
  revert _h
  unfold getline
  by_cases hb : (ss.eofbit || ss.failbit) = true
  · simp [hb]
  · cases ss.rest with
    | nil => simp [hb]
    | cons c cs =>
      have hk := key cs
      by_cases hc : c = delim
      · simp [hb, extract, hc]
      · simp only [hb, extract, hc, if_false, List.length_cons]
        intro _
        simp only [Bool.false_eq_true, if_false]
        omega

/-- The overload `std::vector<std::string> &split(const std::string &s, char delim,
std::vector<std::string> &elems)` (dparse.cpp 35-42): the vector `elems` after the
call.  (Lean has no overloading, hence the name.) -/
def splitElems (s : List Char) (delim : Char) (elems : List (List Char)) :
    List (List Char) :=
  splitLoop { rest := s, eofbit := false, failbit := false } [] delim elems

/-- The overload `std::vector<std::string> split(const std::string &s, char delim)`
(dparse.cpp 45-49): a fresh vector filled by the accumulating overload. -/
def split (s : List Char) (delim : Char) : List (List Char) :=
  splitElems s delim []

/-! ## `dparse.cpp`: `main` -/

/-- Contents of a `uint8_t`. -/
abbrev Byte := Fin 256

/-- Constant `static const uint32_t classes = 10;` -/
def classes : Nat := 10

/-- Constant `static const uint32_t training_images = 49920;` -/
def training_images : Nat := 49920

/-- Constant `static const uint32_t test_images = 9984;` -/
def test_images : Nat := 9984

/-- Constant `static const uint32_t width = 32;` -/
def width : Nat := 32

/-- Constant `static const uint32_t height = 32;` -/
def height : Nat := 32

/-- Constant `static const uint32_t length = 3;` -/
def length : Nat := 3

/-- Constant `static const uint32_t imageSize = width * height * length;`, a `uint32_t`
product evaluated left to right. -/
def imageSize : Nat := (width * height % 2 ^ 32) * length % 2 ^ 32

/-- The `uint32_t` product `images * imageSize`, as it is passed (converted to
`size_t`) to the `vector` constructor and to `addDim("dataDim0", ...)`. -/
def dataSize (images : Nat) : Nat := images * imageSize % 2 ^ 32

/-- State of the `ifstream is`: the bytes of the file not yet read and whether the
stream is still good. -/
structure IfStream where
  rest : List Byte
  good : Bool
deriving DecidableEq, Repr

/-- The call `is.read(buf, n)`: the bytes stored at `buf` and the stream afterwards.
On a stream that is not good nothing is stored; when fewer than `n` bytes are left
they are all stored and the stream fails. -/
def IfStream.read (s : IfStream) (n : Nat) : List Byte × IfStream :=
  if s.good then
    if n ≤ s.rest.length then (s.rest.take n, { rest := s.rest.drop n, good := true })
    else (s.rest, { rest := [], good := false })
  else ([], s)

/-- Storing the bytes `got` into the buffer `buf` from index `pos` on. -/
def writeAt (buf : List Byte) (pos : Nat) (got : List Byte) : List Byte :=
  buf.take pos ++ got ++ buf.drop (pos + got.length)

/-- The variables of `main` that a read loop changes. -/
structure ReadState where
  is : IfStream
  vData : List Byte
  vSparseLabel : List Nat
  vSparseLabelStart : List Nat
  vSparseLabelEnd : List Nat
  pos : Nat
deriving DecidableEq, Repr

/-- The state before a read loop (dparse.cpp 70-74 and 131-135): the stream just
opened on the file contents, the four vectors value-initialised, `pos = 0`. -/
def initState (images : Nat) (file : List Byte) : ReadState :=
  { is := { rest := file, good := true }
    vData := List.replicate (dataSize images) 0
    vSparseLabel := List.replicate images 0
    vSparseLabelStart := List.replicate images 0
    vSparseLabelEnd := List.replicate images 0
    pos := 0 }

/-- One iteration of the read loop, for the value `i` of the `size_t` counter
(dparse.cpp 77-83 and 138-144).  `uninit i` is the indeterminate content of the
uninitialised `uint8_t dummy`, which stays when the one-byte read stores nothing. -/
def readStep (uninit : Nat → Byte) (st : ReadState) (i : Nat) : ReadState :=
  let r1 := st.is.read 1
  let dummy : Byte := r1.1.headD (uninit i)
  let r2 := r1.2.read imageSize
  { is := r2.2
    vData := writeAt st.vData st.pos r2.1
    vSparseLabel := st.vSparseLabel.set i (dummy.val % 2 ^ 32)
    vSparseLabelStart := st.vSparseLabelStart.set i (i % 2 ^ 32)
    vSparseLabelEnd := st.vSparseLabelEnd.set i ((i + 1) % 2 ^ 64 % 2 ^ 32)
    pos := (st.pos + imageSize) % 2 ^ 64 }

/-- The read loop `for (size_t i = 0; i < images; i++) { ... }` run on the contents
of the input file (dparse.cpp 75-84 with `images = training_images`, 136-145 with
`images = test_images`; the two loops differ in the names of the vectors only). -/
def readLoop (uninit : Nat → Byte) (images : Nat) (file : List Byte) : ReadState :=
  (List.range images).foldl (readStep uninit) (initState images file)

/-- Value of a NetCDF attribute written by `putAtt`. -/
inductive NcAtt where
  | uint (v : Nat)
  | text (s : String)
deriving DecidableEq, Repr

/-- Data of a NetCDF variable written by `putVar`. -/
inductive NcData where
  | ubyte (d : List Byte)
  | uint (d : List Nat)
deriving DecidableEq, Repr

/-- What `main` puts into one `NcFile`: attributes, dimensions and variables (name,
name of its dimension, data), each in the order written. -/
structure NcFile where
  atts : List (String × NcAtt)
  dims : List (String × Nat)
  vars : List (String × String × NcData)
deriving DecidableEq, Repr

/-- The block writing one data set (dparse.cpp 89-121 with `images = training_images`,
150-182 with `images = test_images`).  `putVar` stores as many elements of the
vector as the dimension of the variable has. -/
def writeNc (images : Nat) (st : ReadState) : NcFile :=
  { atts :=
      [("datasets", .uint 2),
       ("name0", .text "input"), ("attributes0", .uint 0), ("kind0", .uint 1),
       ("dataType0", .uint 8), ("dimensions0", .uint 3),
       ("width0", .uint width), ("height0", .uint height), ("length0", .uint length),
       ("name1", .text "output"), ("attributes1", .uint 3), ("kind1", .uint 0),
       ("dataType1", .uint 0), ("dimensions1", .uint 1), ("width1", .uint classes)]
    dims :=
      [("examplesDim0", images), ("dataDim0", dataSize images),
       ("examplesDim1", images), ("sparseDataDim1", images)]
    vars :=
      [("data0", "dataDim0", .ubyte (st.vData.take (dataSize images))),
       ("sparseStart1", "examplesDim1", .uint (st.vSparseLabelStart.take images)),
       ("sparseEnd1", "examplesDim1", .uint (st.vSparseLabelEnd.take images)),
       ("sparseIndex1", "sparseDataDim1", .uint (st.vSparseLabel.take images))] }

/-- What a run of `main` leaves behind: the exit status and the two files, when
they were written. -/
structure Outcome where
  status : Int
  training : Option NcFile
  test : Option NcFile
deriving DecidableEq, Repr

/-- The function `main` (dparse.cpp 52-190).  `trainingBin` and `testBin` are the
contents of `training.bin` and `test.bin`, `none` when the file cannot be opened
(`exit(-1)`).  The messages printed and the timing are left out. -/
def main (uninit : Nat → Byte) (trainingBin testBin : Option (List Byte)) : Outcome :=
  match trainingBin with
  | none => { status := -1, training := none, test := none }
  | some tr =>
    let nc0 := writeNc training_images (readLoop uninit training_images tr)
    match testBin with
    | none => { status := -1, training := some nc0, test := none }
    | some te =>
      { status := 0
        training := some nc0
        test := some (writeNc test_images (readLoop uninit test_images te)) }

/-! ### Closed forms used in the proofs -/

/-- Label byte of record `i` of a file made of records of `1 + imageSize` bytes
(0 when the file is too short). -/
def recordLabel (file : List Byte) (i : Nat) : Byte :=
  file.getD (i * (1 + imageSize)) 0

/-- Pixel block of record `i` of such a file. -/
def recordPixels (file : List Byte) (i : Nat) : List Byte :=
  (file.drop (i * (1 + imageSize) + 1)).take imageSize

/-- The state the read loop is in after `n` iterations, when the file holds at least
`n` records. -/
def stateAfter (images : Nat) (file : List Byte) (n : Nat) : ReadState :=
  { is := { rest := file.drop (n * (1 + imageSize)), good := true }
    vData := (List.range n).flatMap (recordPixels file) ++
      List.replicate ((images - n) * imageSize) 0
    vSparseLabel := (List.range n).map (fun i => (recordLabel file i).val) ++
      List.replicate (images - n) 0
    vSparseLabelStart := List.range n ++ List.replicate (images - n) 0
    vSparseLabelEnd := (List.range n).map (fun i => i + 1) ++ List.replicate (images - n) 0
    pos := n * imageSize }

/-- The byte sequence made of each stored label (as a byte) followed by its block of
`imageSize` pixel bytes. -/
def interleave : List Nat → List Byte → List Byte
  | [], _ => []
  | l :: ls, data =>
    (Fin.ofNat l : Byte) :: (data.take imageSize ++ interleave ls (data.drop imageSize))

end Dparse

/-! # Properties -/

namespace Utils

/-! ## `rand(int, int)` -/

/-- Claim C5, amended: for all `int`s `min ≤ max` other than the pair
`(INT_MIN, INT_MAX)` and every value `0 ≤ r ≤ INT_MAX` returned by `rand()`,
`rand(min, max)` returns a value `v` with `min ≤ v ≤ max`, all `int` arithmetic
wrapping to 32 bits (the width `max - min + 1` may wrap; the result is in range all
the same). -/
theorem rand_inRange (r min max : Int)
    (hmin : INT_MIN ≤ min) (hmax : max ≤ INT_MAX) (hle : min ≤ max)
    (hr0 : 0 ≤ r) (hr1 : r ≤ INT_MAX) (hfull : ¬ (min = INT_MIN ∧ max = INT_MAX)) :
    ∃ v, rand r min max = some v ∧ min ≤ v ∧ v ≤ max := by
  unfold INT_MIN INT_MAX at *
  unfold rand
  simp only []
  rcases lt_trichotomy (max - min + 1) (2 ^ 31) with hlt | heq | hgt
  · -- the width fits in an int
    have hd : wrapInt32 (wrapInt32 (max - min) + 1) = max - min + 1 := by
      unfold wrapInt32; omega
    rw [hd]
    have hpos : (0:Int) < max - min + 1 := by omega
    rw [if_neg (by omega)]
    rw [Int.tmod_eq_emod hr0 (by omega)]
    have h1 := Int.emod_nonneg r (show max - min + 1 ≠ 0 by omega)
    have h2 := Int.emod_lt_of_pos r hpos
    refine ⟨_, rfl, ?_, ?_⟩ <;> unfold wrapInt32 <;> omega
  · have hd : wrapInt32 (wrapInt32 (max - min) + 1) = -(2 ^ 31) := by
      unfold wrapInt32; omega
    rw [hd, if_neg (by norm_num), Int.tmod_neg]
    rw [Int.tmod_eq_emod hr0 (by norm_num)]
    have h1 : r % 2 ^ 31 = r := Int.emod_eq_of_lt hr0 (by omega)
    rw [h1]
    refine ⟨_, rfl, ?_, ?_⟩ <;> unfold wrapInt32 <;> omega
  · have hd : wrapInt32 (wrapInt32 (max - min) + 1) = -(2 ^ 32 - (max - min + 1)) := by
      unfold wrapInt32; omega
    have hpos : (0:Int) < 2 ^ 32 - (max - min + 1) := by omega
    rw [hd, if_neg (by omega), Int.tmod_neg]
    rw [Int.tmod_eq_emod hr0 (by omega)]
    have h1 := Int.emod_nonneg r (show 2 ^ 32 - (max - min + 1) ≠ 0 by omega)
    have h2 := Int.emod_lt_of_pos r hpos
    refine ⟨_, rfl, ?_, ?_⟩ <;> unfold wrapInt32 <;> omega

/-- The range `[-1, INT_MAX]`, whose width wraps to a negative `int`, with the largest
value `rand()` can return. -/
theorem rand_inRange_witness :
    INT_MIN ≤ (-1 : Int) ∧ (-1 : Int) ≤ INT_MAX ∧ (0 : Int) ≤ 2147483647 ∧
    ∃ v, rand 2147483647 (-1) INT_MAX = some v ∧ -1 ≤ v ∧ v ≤ INT_MAX :=
  ⟨by decide, by decide, by decide,
    rand_inRange 2147483647 (-1) INT_MAX (by decide) (by decide) (by decide) (by decide)
      (by decide) (by decide)⟩

/-- On the full range the divisor `max - min + 1` wraps to zero, whatever `rand()`
returned. -/
theorem rand_full_range (r : Int) : rand r INT_MIN INT_MAX = none := by
  unfold rand wrapInt32 INT_MIN INT_MAX
  simp only []
  rw [if_pos (by norm_num)]

/-- Claim C5 as stated fails for `min = INT_MIN`, `max = INT_MAX` (a pair with
`min ≤ max`) and `r = 12345`: `max - min + 1` wraps to `0`, the remainder has no
value, and no `v` in `[min, max]` is returned. -/
theorem rand_full_int_range_no_result :
    INT_MIN ≤ INT_MAX ∧ (0 : Int) ≤ 12345 ∧ rand 12345 INT_MIN INT_MAX = none ∧
    ¬ ∃ v, rand 12345 INT_MIN INT_MAX = some v ∧ INT_MIN ≤ v ∧ v ≤ INT_MAX := by
  refine ⟨by decide, by decide, rand_full_range 12345, ?_⟩
  rintro ⟨v, hv, _⟩
  rw [rand_full_range 12345] at hv
  exact Option.noConfusion hv

/-! ## `topKsort` -/

/-- When neither count is negative `topKsort` succeeds and writes the two projections
of `selected`, under either setting of `sortByKey`. -/
theorem topKsort_eq_selected {Tkey Tval : Type} [LinearOrder Tkey]
    (keys : List Tkey) (vals : List Tval) (size topK : Int)
    (sortByKey : Bool) (hs0 : 0 ≤ size) (hk0 : 0 ≤ topK) :
    topKsort keys vals size topK sortByKey =
      Except.ok ((selected keys vals size topK).map Prod.fst,
                 (selected keys vals size topK).map Prod.snd) := by
  have hg : ¬ (size < 0 ∨ topK < 0) := by omega
  unfold topKsort selected rankedEntries
  rw [if_neg hg]
  cases sortByKey <;> rfl

/-- When `size` is the length of both sequences, all their pairs are read. -/
theorem take_size_zip {Tkey Tval : Type} (keys : List Tkey) (vals : List Tval) (size : Int)
    (hlen : keys.length = vals.length) (hsize : size = keys.length) :
    (keys.zip vals).take size.toNat = keys.zip vals := by
  apply List.take_of_length_le
  simp [List.length_zip, hsize, ← hlen]

/-- With `size` entries in both sequences and `topK ≤ size` exactly `topK` entries
are selected (none for a negative `topK`). -/
theorem selected_length {Tkey Tval : Type} [LinearOrder Tkey]
    (keys : List Tkey) (vals : List Tval) (size topK : Int)
    (hk : size ≤ keys.length) (hv : size ≤ vals.length) (hks : topK ≤ size) :
    (selected keys vals size topK).length = topK.toNat := by
  unfold selected rankedEntries
  rw [List.length_take, List.length_insertionSort, List.length_take, List.length_zip]
  omega

/-- Zipping the two projections of a list of pairs gives the list back. -/
theorem zip_map_fst_snd {Tkey Tval : Type} (l : List (Tkey × Tval)) :
    (l.map Prod.fst).zip (l.map Prod.snd) = l := by
  induction l with
  | nil => rfl
  | cons a l ih => simp [ih]

/-- The selection and the entries ranked after it make up the entries read, and no
entry ranked after it has a larger key than a selected one. -/
theorem selected_split {Tkey Tval : Type} [LinearOrder Tkey]
    (keys : List Tkey) (vals : List Tval) (size topK : Int) :
    (selected keys vals size topK ++ (rankedEntries keys vals size).drop topK.toNat).Perm
        ((keys.zip vals).take size.toNat) ∧
    ∀ p ∈ (rankedEntries keys vals size).drop topK.toNat,
      ∀ q ∈ selected keys vals size topK, p.1 ≤ q.1 := by
  constructor
  · unfold selected
    rw [List.take_append_drop]
    exact List.perm_insertionSort _ _
  · intro p hp q hq
    have hsorted : ((rankedEntries keys vals size).take topK.toNat ++
        (rankedEntries keys vals size).drop topK.toNat).Pairwise (fun a b => a.1 ≥ b.1) := by
      rw [List.take_append_drop]
      exact List.sorted_insertionSort (fun a b : Tkey × Tval => a.1 ≥ b.1) _
    exact (List.pairwise_append.1 hsorted).2.2 q hq p hp

/-- Claim C1: for `n` key/value pairs (`size = n`) and `0 ≤ topK ≤ n`, `topKsort`
succeeds and writes exactly `topK` keys and `topK` values; the written pairs are a
sub-multiset of the input pairs; and every input pair left out has a key no larger
than every key written, so no larger than the worst of them.  Holds for both settings
of `sortByKey`. -/
theorem topKsort_selects {Tkey Tval : Type} [LinearOrder Tkey]
    (keys : List Tkey) (vals : List Tval) (size topK : Int)
    (sortByKey : Bool) (hlen : keys.length = vals.length) (hsize : size = keys.length)
    (hk0 : 0 ≤ topK) (hk : topK ≤ size) :
    ∃ (topKkeys : List Tkey) (topKvals : List Tval),
      topKsort keys vals size topK sortByKey = Except.ok (topKkeys, topKvals) ∧
      (topKkeys.length : Int) = topK ∧ (topKvals.length : Int) = topK ∧
      (topKkeys.zip topKvals).Subperm (keys.zip vals) ∧
      ∃ excluded : List (Tkey × Tval),
        (topKkeys.zip topKvals ++ excluded).Perm (keys.zip vals) ∧
        ∀ p ∈ excluded, ∀ k ∈ topKkeys, p.1 ≤ k := by
  have hL := selected_length keys vals size topK (by omega) (by omega) hk
  obtain ⟨hperm, hworse⟩ := selected_split keys vals size topK
  rw [take_size_zip keys vals size hlen hsize] at hperm
  refine ⟨_, _, topKsort_eq_selected keys vals size topK sortByKey (by omega) hk0, ?_, ?_, ?_,
    (List.drop topK.toNat (rankedEntries keys vals size)), ?_, ?_⟩
  · rw [List.length_map, hL]; omega
  · rw [List.length_map, hL]; omega
  · rw [zip_map_fst_snd]
    exact (List.sublist_append_left _ _).subperm.trans hperm.subperm
  · rw [zip_map_fst_snd]; exact hperm
  · intro p hp k hkm
    obtain ⟨q, hq, rfl⟩ := List.mem_map.1 hkm
    exact hworse p hp q hq

/-- The example of the spec: the three largest of five keys. -/
theorem topKsort_selects_witness :
    ∃ (topKkeys : List Int) (topKvals : List String),
      topKsort [5, 1, 9, 3, 7] ["e", "a", "i", "c", "g"] 5 3 true =
        Except.ok (topKkeys, topKvals) ∧
      (topKkeys.length : Int) = 3 ∧ (topKvals.length : Int) = 3 ∧
      (topKkeys.zip topKvals).Subperm
        (List.zip [5, 1, 9, 3, 7] ["e", "a", "i", "c", "g"]) ∧
      ∃ excluded : List (Int × String),
        (topKkeys.zip topKvals ++ excluded).Perm
          (List.zip [5, 1, 9, 3, 7] ["e", "a", "i", "c", "g"]) ∧
        ∀ p ∈ excluded, ∀ k ∈ topKkeys, p.1 ≤ k :=
  topKsort_selects [5, 1, 9, 3, 7] ["e", "a", "i", "c", "g"] 5 3 true
    (by decide) (by decide) (by decide) (by decide)

end Utils

namespace Dparse

/-! ## `split` -/

/-- On a stream that is not good the loop ends at once. -/
theorem splitLoop_failed (ss : StringStream) (item : List Char) (delim : Char)
    (elems : List (List Char)) (h : (ss.eofbit || ss.failbit) = true) :
    splitLoop ss item delim elems = elems := by
  rw [splitLoop]
  simp [getline, h]

/-- On a good stream with nothing left the loop ends at once. -/
theorem splitLoop_nil (item : List Char) (delim : Char) (elems : List (List Char)) :
    splitLoop { rest := [], eofbit := false, failbit := false } item delim elems = elems := by
  rw [splitLoop]
  simp [getline]

/-- One iteration of the loop on a good stream with characters left. -/
theorem splitLoop_cons (c : Char) (cs item : List Char) (delim : Char)
    (elems : List (List Char)) :
    splitLoop { rest := c :: cs, eofbit := false, failbit := false } item delim elems =
      splitLoop { rest := (extract delim (c :: cs)).2.1, eofbit := (extract delim (c :: cs)).2.2,
                  failbit := false } (extract delim (c :: cs)).1 delim
        (elems ++ [(extract delim (c :: cs)).1]) := by
  rw [splitLoop]
  simp [getline]

/-- What `extract` returns, in terms of the input. -/
theorem extract_spec (delim : Char) (l : List Char) :
    delim ∉ (extract delim l).1 ∧
    ((extract delim l).2.2 = true → l = (extract delim l).1 ∧ (extract delim l).2.1 = []) ∧
    ((extract delim l).2.2 = false → l = (extract delim l).1 ++ delim :: (extract delim l).2.1) := by
  induction l with
  | nil => simp [extract]
  | cons c cs ih =>
    by_cases hc : c = delim
    · subst hc; simp [extract]
    · obtain ⟨h1, h2, h3⟩ := ih
      simp only [extract, hc, if_false]
      refine ⟨?_, ?_, ?_⟩
      · simp [h1, Ne.symm hc]
      · intro h
        obtain ⟨h4, h5⟩ := h2 h
        exact ⟨by rw [← h4], h5⟩
      · intro h
        have := h3 h
        simp only [List.cons_append]
        rw [← this]

/-- Without a delimiter the whole buffer is one item and its end is reached. -/
theorem extract_of_not_mem (delim : Char) (a : List Char) (h : delim ∉ a) :
    extract delim a = (a, [], true) := by
  induction a with
  | nil => rfl
  | cons c cs ih =>
    simp only [List.mem_cons, not_or] at h
    simp [extract, Ne.symm h.1, ih h.2]

/-- The item stops at the first delimiter, which is dropped. -/
theorem extract_append_delim (delim : Char) (a b : List Char) (h : delim ∉ a) :
    extract delim (a ++ delim :: b) = (a, b, false) := by
  induction a with
  | nil => simp [extract]
  | cons c cs ih =>
    simp only [List.mem_cons, not_or] at h
    simp [extract, Ne.symm h.1, ih h.2]

/-- The vector passed in is a prefix of the result: frame lemma of the loop. -/
theorem splitLoop_append (delim : Char) :
    ∀ (n : Nat) (ss : StringStream) (item : List Char) (elems : List (List Char)),
      ss.rest.length ≤ n →
      splitLoop ss item delim elems = elems ++ splitLoop ss item delim [] := by
  intro n
  induction n with
  | zero =>
    intro ss item elems hn
    obtain ⟨rest, e, f⟩ := ss
    simp only [Nat.le_zero, List.length_eq_zero] at hn
    subst hn
    by_cases hb : (e || f) = true
    · rw [splitLoop_failed _ _ _ _ hb, splitLoop_failed _ _ _ _ hb]; simp
    · simp only [Bool.or_eq_true, not_or, Bool.not_eq_true] at hb
      obtain ⟨he, hf⟩ := hb
      subst he hf
      rw [splitLoop_nil, splitLoop_nil]; simp
  | succ n ih =>
    intro ss item elems hn
    obtain ⟨rest, e, f⟩ := ss
    by_cases hb : (e || f) = true
    · rw [splitLoop_failed _ _ _ _ hb, splitLoop_failed _ _ _ _ hb]; simp
    · simp only [Bool.or_eq_true, not_or, Bool.not_eq_true] at hb
      obtain ⟨he, hf⟩ := hb
      subst he hf
      cases rest with
      | nil => rw [splitLoop_nil, splitLoop_nil]; simp
      | cons c cs =>
        rw [splitLoop_cons, splitLoop_cons c cs item delim []]
        have hlen : (extract delim (c :: cs)).2.1.length ≤ n := by
          obtain ⟨_, h2, h3⟩ := extract_spec delim (c :: cs)
          cases hE : (extract delim (c :: cs)).2.2 with
          | true => rw [(h2 hE).2]; simp
          | false =>
            have := congrArg List.length (h3 hE)
            simp only [List.length_cons, List.length_append] at this hn
            omega
        rw [ih _ _ (elems ++ _) hlen, ih _ _ ([] ++ _) hlen]
        simp

/-- Recursion equation of `split`: the first field, then the fields of what follows
its delimiter. -/
theorem split_cons_eq (c : Char) (cs : List Char) (delim : Char) :
    split (c :: cs) delim =
      (extract delim (c :: cs)).1 ::
        (if (extract delim (c :: cs)).2.2 = true then [] else split (extract delim (c :: cs)).2.1 delim) := by
  unfold split splitElems
  rw [splitLoop_cons, splitLoop_append delim _ _ _ _ (le_refl _)]
  cases hE : (extract delim (c :: cs)).2.2 with
  | true =>
    rw [splitLoop_failed _ _ _ _ (by simp)]
    simp
  | false =>
    simp only [List.nil_append, List.singleton_append, Bool.false_eq_true, if_false, List.cons.injEq, true_and]
    rw [splitLoop]
    conv_rhs => rw [splitLoop]
    cases (extract delim (c :: cs)).2.1 <;> simp [getline]

/-- The empty string has no fields. -/
theorem split_nil (delim : Char) : split [] delim = [] := by
  unfold split splitElems
  exact splitLoop_nil _ _ _


/-- Joining at least two fields. -/
theorem intercalate_cons_cons_aux (d : Char) (a x : List Char) (xs : List (List Char)) :
    [d].intercalate (a :: x :: xs) = a ++ d :: [d].intercalate (x :: xs) := by
  simp [List.intercalate]

/-- Joining the fields of `s`, by induction on a bound of its length. -/
theorem split_join_aux (d : Char) :
    ∀ (n : Nat) (s : List Char), s.length ≤ n →
      [d].intercalate (split s d) = (if s.getLast? = some d then s.dropLast else s) := by
  intro n
  induction n with
  | zero =>
    intro s hs
    simp only [Nat.le_zero, List.length_eq_zero] at hs
    subst hs
    simp [split_nil, List.intercalate]
  | succ n ih =>
    intro s hs
    cases s with
    | nil => simp [split_nil, List.intercalate]
    | cons c cs =>
      obtain ⟨h1, h2, h3⟩ := extract_spec d (c :: cs)
      rw [split_cons_eq]
      cases hE : (extract d (c :: cs)).2.2 with
      | true =>
        obtain ⟨h4, _⟩ := h2 hE
        rw [← h4] at h1
        have hlast : (c :: cs).getLast? ≠ some d := by
          intro h
          exact h1 (List.mem_of_mem_getLast? h)
        rw [if_neg hlast, ← h4]
        simp [List.intercalate]
      | false =>
        have h5 := h3 hE
        generalize (extract d (c :: cs)).1 = a at h1 h5 ⊢
        generalize (extract d (c :: cs)).2.1 = rest at h5 ⊢
        rw [h5]
        simp only [Bool.false_eq_true, if_false]
        have hlen : rest.length ≤ n := by
          have := congrArg List.length h5
          simp only [List.length_cons, List.length_append] at this hs
          omega
        cases rest with
        | nil => simp [split_nil, List.intercalate]
        | cons c2 cs2 =>
          have ih2 := ih (c2 :: cs2) hlen
          rw [split_cons_eq] at ih2 ⊢
          rw [intercalate_cons_cons_aux, ih2]
          have hl : (a ++ d :: c2 :: cs2).getLast? = (c2 :: cs2).getLast? := by
            rw [List.getLast?_append_of_ne_nil _ (by simp), List.getLast?_cons_cons]
          rw [hl]
          by_cases hq : (c2 :: cs2).getLast? = some d
          · rw [if_pos hq, if_pos hq]
            simp [List.dropLast_append_cons, List.dropLast_cons_of_ne_nil]
          · rw [if_neg hq, if_neg hq]


/-- A non-empty string without delimiter is its only field. -/
theorem split_of_not_mem (d : Char) (a : List Char) (h : d ∉ a) (hne : a ≠ []) :
    split a d = [a] := by
  cases a with
  | nil => exact absurd rfl hne
  | cons c cs => rw [split_cons_eq, extract_of_not_mem d _ h]; simp

/-- A field ended by a delimiter is kept, and the rest is split in turn. -/
theorem split_append_delim (d : Char) (a b : List Char) (h : d ∉ a) :
    split (a ++ d :: b) d = a :: split b d := by
  have hE := extract_append_delim d a b h
  cases a with
  | nil =>
    rw [List.nil_append] at hE ⊢
    rw [split_cons_eq, hE]; simp
  | cons c cs =>
    rw [List.cons_append] at hE ⊢
    rw [split_cons_eq, hE]; simp

/-- A string holds no delimiter or splits at its first one. -/
theorem delim_decomp (d : Char) (s : List Char) :
    d ∉ s ∨ ∃ a rest, d ∉ a ∧ s = a ++ d :: rest := by
  obtain ⟨h1, h2, h3⟩ := extract_spec d s
  cases hE : (extract d s).2.2 with
  | true =>
    left
    have := (h2 hE).1
    rw [this]; exact h1
  | false => exact Or.inr ⟨_, _, h1, h3 hE⟩

/-- No field holds the delimiter. -/
theorem split_no_delim (d : Char) :
    ∀ (n : Nat) (s : List Char), s.length ≤ n → ∀ e ∈ split s d, d ∉ e := by
  intro n
  induction n with
  | zero =>
    intro s hs e he
    simp only [Nat.le_zero, List.length_eq_zero] at hs
    subst hs
    simp [split_nil] at he
  | succ n ih =>
    intro s hs e he
    rcases delim_decomp d s with h | ⟨a, rest, ha, rfl⟩
    · by_cases hne : s = []
      · subst hne; simp [split_nil] at he
      · rw [split_of_not_mem d s h hne] at he
        simp only [List.mem_singleton] at he
        rw [he]; exact h
    · rw [split_append_delim d a rest ha] at he
      simp only [List.length_append, List.length_cons] at hs
      rcases List.mem_cons.1 he with h | h
      · rw [h]; exact ha
      · exact ih rest (by omega) e h

/-- One delimiter appended to a non-empty string not ending in one changes nothing. -/
theorem split_trailing_aux (d : Char) :
    ∀ (n : Nat) (s : List Char), s.length ≤ n → s ≠ [] → s.getLast? ≠ some d →
      split (s ++ [d]) d = split s d := by
  intro n
  induction n with
  | zero =>
    intro s hs hne
    simp only [Nat.le_zero, List.length_eq_zero] at hs
    exact absurd hs hne
  | succ n ih =>
    intro s hs hne hlast
    rcases delim_decomp d s with h | ⟨a, rest, ha, rfl⟩
    · rw [split_append_delim d s [] h, split_nil, split_of_not_mem d s h hne]
    · have hrest : rest ≠ [] := by
        intro h0
        subst h0
        exact hlast (by simp)
      have hl : (a ++ d :: rest).getLast? = rest.getLast? := by
        cases rest with
        | nil => exact absurd rfl hrest
        | cons c cs =>
          rw [List.getLast?_append_of_ne_nil _ (by simp), List.getLast?_cons_cons]
      rw [hl] at hlast
      simp only [List.length_append, List.length_cons] at hs
      have e : a ++ d :: rest ++ [d] = a ++ d :: (rest ++ [d]) := by simp
      rw [e, split_append_delim d a _ ha, split_append_delim d a _ ha,
        ih rest (by omega) hrest hlast]

/-- The accumulating overload appends the fields to the vector passed in. -/
theorem splitElems_eq_append (s : List Char) (d : Char) (elems : List (List Char)) :
    splitElems s d elems = elems ++ split s d := by
  unfold split splitElems
  exact splitLoop_append d _ _ _ _ (le_refl _)

/-- Claim C8: joining the elements of `split(s, d)` with `d` gives `s` without its
last character when `s` ends with `d`, and `s` itself otherwise; `split` of the empty
string is the empty list; a field ended by a delimiter is kept as an element also when
it is empty (before a leading delimiter: `a = []`; between two delimiters:
`b = d :: _`); and one trailing delimiter after a non-empty string not ending in `d`
adds no element. -/
theorem split_join_fields (s : List Char) (d : Char) :
    [d].intercalate (split s d) = (if s.getLast? = some d then s.dropLast else s) ∧
    split [] d = [] ∧
    (∀ a b : List Char, d ∉ a → split (a ++ d :: b) d = a :: split b d) ∧
    (∀ t : List Char, t ≠ [] → t.getLast? ≠ some d → split (t ++ [d]) d = split t d) :=
  ⟨split_join_aux d s.length s (le_refl _), split_nil d,
    fun a b h => split_append_delim d a b h,
    fun t h1 h2 => split_trailing_aux d t.length t (le_refl _) h1 h2⟩

/-- The strings `",a,,b,"` and `",a,,b"` have the same four fields. -/
theorem split_join_fields_witness :
    [','].intercalate (split [',', 'a', ',', ',', 'b', ','] ',') = [',', 'a', ',', ',', 'b'] ∧
    split [',', 'a', ',', ',', 'b', ','] ',' = [[], ['a'], [], ['b']] ∧
    split [',', 'a', ',', ',', 'b'] ',' = [[], ['a'], [], ['b']] := by
  have h := split_join_fields [',', 'a', ',', ',', 'b', ','] ','
  have h2 := split_join_fields [',', 'a', ',', ',', 'b'] ','
  refine ⟨by simpa using h.1, ?_, ?_⟩
  · have e := h2.2.2.2 [',', 'a', ',', ',', 'b'] (by simp) (by simp)
    have e1 := h2.2.2.1 [] ['a', ',', ',', 'b'] (by simp)
    have e2 := h2.2.2.1 ['a'] [',', 'b'] (by simp)
    have e3 := h2.2.2.1 [] ['b'] (by simp)
    simp only [List.nil_append, List.cons_append] at e e1 e2 e3
    rw [e, e1, e2, e3, split_of_not_mem ',' ['b'] (by simp) (by simp)]
  · have e1 := h2.2.2.1 [] ['a', ',', ',', 'b'] (by simp)
    have e2 := h2.2.2.1 ['a'] [',', 'b'] (by simp)
    have e3 := h2.2.2.1 [] ['b'] (by simp)
    simp only [List.nil_append, List.cons_append] at e1 e2 e3
    rw [e1, e2, e3, split_of_not_mem ',' ['b'] (by simp) (by simp)]

/-- Claim C9: the accumulating overload `split(s, d, elems)` returns `elems` followed
by the elements of `split(s, d)`, so the elements already in `elems` stay as they
were and in place (the first `elems.length` elements of the result are `elems`) and
what follows them is `split(s, d)` in order; `split(s, d)` is the accumulating
overload run on an empty vector; and no appended element contains `d`. -/
theorem splitElems_frame (s : List Char) (d : Char) (elems : List (List Char)) :
    splitElems s d elems = elems ++ split s d ∧
    split s d = splitElems s d [] ∧
    (splitElems s d elems).take elems.length = elems ∧
    (splitElems s d elems).drop elems.length = split s d ∧
    ∀ e ∈ split s d, d ∉ e := by
  have h := splitElems_eq_append s d elems
  refine ⟨h, rfl, ?_, ?_, split_no_delim d s.length s (le_refl _)⟩
  · rw [h, List.take_left]
  · rw [h, List.drop_left]


/-- Splitting `"b,c"` onto a vector that holds `"a,"`: the old element stays, even
though it contains the delimiter. -/
theorem splitElems_frame_witness :
    splitElems ['b', ',', 'c'] ',' [['a', ',']] = [['a', ','], ['b'], ['c']] := by
  have h := (splitElems_frame ['b', ',', 'c'] ',' [['a', ',']]).1
  have e := split_append_delim ',' ['b'] ['c'] (by simp)
  simp only [List.cons_append, List.nil_append] at e
  rw [h, e, split_of_not_mem ',' ['c'] (by simp) (by simp)]
  rfl

/-! ## The read loops and the files written -/

/-- A record that lies within the file has a full pixel block. -/
theorem recordPixels_length (file : List Byte) (i : Nat)
    (h : (i + 1) * (1 + imageSize) ≤ file.length) :
    (recordPixels file i).length = imageSize := by
  unfold recordPixels
  rw [List.length_take, List.length_drop]
  have : (i + 1) * (1 + imageSize) = i * (1 + imageSize) + 1 + imageSize := by ring
  omega

/-- Length of the pixel blocks of the first `n` records. -/
theorem pixels_length (file : List Byte) (n : Nat)
    (h : n * (1 + imageSize) ≤ file.length) :
    ((List.range n).flatMap (recordPixels file)).length = n * imageSize := by
  induction n with
  | zero => simp
  | succ n ih =>
    have h1 : n * (1 + imageSize) ≤ file.length := by
      have : (n + 1) * (1 + imageSize) = n * (1 + imageSize) + (1 + imageSize) := by ring
      omega
    rw [List.range_succ, List.flatMap_append, List.length_append, ih h1]
    simp only [List.flatMap_cons, List.flatMap_nil, List.append_nil]
    rw [recordPixels_length file n h]
    ring

/-- Reading the one label byte at offset `k`. -/
theorem read_one (file : List Byte) (k : Nat) (h : k < file.length) :
    IfStream.read { rest := file.drop k, good := true } 1 =
      ([file.getD k 0], { rest := file.drop (k + 1), good := true }) := by
  unfold IfStream.read
  have hl : 1 ≤ (file.drop k).length := by rw [List.length_drop]; omega
  simp only [if_true, hl, List.drop_drop]
  rw [List.take_one, List.head?_drop, List.getD_eq_getElem?_getD,
    List.getElem?_eq_getElem h]
  rfl

/-- Reading `n` bytes at offset `k`, when the file holds them. -/
theorem read_block (file : List Byte) (k n : Nat) (h : k + n ≤ file.length) :
    IfStream.read { rest := file.drop k, good := true } n =
      ((file.drop k).take n, { rest := file.drop (k + n), good := true }) := by
  unfold IfStream.read
  have hl : n ≤ (file.drop k).length := by rw [List.length_drop]; omega
  simp only [if_true, hl, List.drop_drop]

/-- One iteration takes the closed form for `n` records to that for `n + 1`. -/
theorem readStep_stateAfter (uninit : Nat → Byte) (images : Nat) (file : List Byte) (n : Nat)
    (hn : n < images) (hsz : images * imageSize < 2 ^ 32)
    (hfile : (n + 1) * (1 + imageSize) ≤ file.length) :
    readStep uninit (stateAfter images file n) n = stateAfter images file (n + 1) := by
  have e1 : (n + 1) * (1 + imageSize) = n * (1 + imageSize) + 1 + imageSize := by ring
  have hn1 : n * (1 + imageSize) ≤ file.length := by omega
  have hmul : (n + 1) * imageSize ≤ images * imageSize := Nat.mul_le_mul_right _ hn
  have e2 : (n + 1) * imageSize = n * imageSize + imageSize := by ring
  have hi : images ≤ images * imageSize ∨ imageSize = 0 := by
    rcases Nat.eq_zero_or_pos imageSize with h | h
    · exact Or.inr h
    · exact Or.inl (Nat.le_mul_of_pos_right _ h)
  have himg : images < 2 ^ 32 := by
    have : imageSize = 3072 := by decide
    omega
  have e3 : images - n = (images - (n + 1)) + 1 := by omega
  have e4 : (images - n) * imageSize = imageSize + (images - (n + 1)) * imageSize := by
    rw [e3]; ring
  unfold readStep
  simp only [stateAfter]
  rw [read_one file _ (by omega), read_block file _ imageSize (by omega)]
  simp only [List.headD_cons, ReadState.mk.injEq]
  refine ⟨?_, ?_, ?_, ?_, ?_, ?_⟩
  · rw [e1]
  · -- the pixel buffer
    unfold writeAt
    have hlen := pixels_length file n hn1
    have hblk : (List.take imageSize (List.drop (n * (1 + imageSize) + 1) file)).length
        = imageSize := recordPixels_length file n hfile
    rw [hblk, ← hlen, List.take_left, List.drop_append, e4, List.replicate_add,
      List.drop_append_of_le_length (by simp), ]
    simp [List.range_succ, List.flatMap_append, recordPixels]
  · -- the labels
    rw [List.set_append, if_neg (by simp), e3]
    simp only [List.length_map, List.length_range, Nat.sub_self, List.replicate_succ,
      List.set_cons_zero, List.range_succ, List.map_append, List.map_cons, List.map_nil,
      List.append_assoc, List.singleton_append]
    have : (file.getD (n * (1 + imageSize)) 0).val % 2 ^ 32 = (recordLabel file n).val := by
      unfold recordLabel
      have := (file.getD (n * (1 + imageSize)) 0).isLt
      omega
    rw [this]
  · rw [List.set_append, if_neg (by simp), e3]
    simp only [List.length_range, Nat.sub_self, List.replicate_succ,
      List.set_cons_zero, List.range_succ, List.append_assoc, List.singleton_append]
    rw [Nat.mod_eq_of_lt (by omega)]
  · rw [List.set_append, if_neg (by simp), e3]
    simp only [List.length_map, List.length_range, Nat.sub_self, List.replicate_succ,
      List.set_cons_zero, List.range_succ, List.map_append, List.map_cons, List.map_nil,
      List.append_assoc, List.singleton_append]
    rw [Nat.mod_eq_of_lt (show n + 1 < 2 ^ 64 by omega), Nat.mod_eq_of_lt (by omega)]
  · rw [e2, Nat.mod_eq_of_lt (by omega)]


/-- The value of `imageSize`. -/
theorem imageSize_eq : imageSize = 3072 := by decide

/-- The state before the loop is the closed form for no record. -/
theorem initState_eq_stateAfter (images : Nat) (file : List Byte)
    (hsz : images * imageSize < 2 ^ 32) :
    initState images file = stateAfter images file 0 := by
  unfold initState stateAfter dataSize
  rw [Nat.mod_eq_of_lt hsz]
  simp

/-- Closed form of the read loop after `n` iterations on a file holding `n` records. -/
theorem foldl_readStep_eq (uninit : Nat → Byte) (images : Nat) (file : List Byte)
    (hsz : images * imageSize < 2 ^ 32) :
    ∀ n, n ≤ images → n * (1 + imageSize) ≤ file.length →
      (List.range n).foldl (readStep uninit) (initState images file) =
        stateAfter images file n := by
  intro n
  induction n with
  | zero => intro _ _; simpa using initState_eq_stateAfter images file hsz
  | succ n ih =>
    intro hn hfile
    have e1 : (n + 1) * (1 + imageSize) = n * (1 + imageSize) + 1 + imageSize := by ring
    rw [List.range_succ, List.foldl_append, ih (by omega) (by omega)]
    simp only [List.foldl_cons, List.foldl_nil]
    exact readStep_stateAfter uninit images file n (by omega) hsz hfile

/-- Closed form of a whole read loop on a file holding `images` records. -/
theorem readLoop_eq (uninit : Nat → Byte) (images : Nat) (file : List Byte)
    (hsz : images * imageSize < 2 ^ 32) (hfile : images * (1 + imageSize) ≤ file.length) :
    readLoop uninit images file = stateAfter images file images :=
  foldl_readStep_eq uninit images file hsz images (le_refl _) hfile

/-- The start and end vectors after `n` iterations, whatever the file holds. -/
theorem foldl_readStep_ranges (uninit : Nat → Byte) (images : Nat) (file : List Byte)
    (himg : images < 2 ^ 32) :
    ∀ n, n ≤ images →
      ((List.range n).foldl (readStep uninit) (initState images file)).vSparseLabelStart =
          List.range n ++ List.replicate (images - n) 0 ∧
      ((List.range n).foldl (readStep uninit) (initState images file)).vSparseLabelEnd =
          (List.range n).map (fun i => i + 1) ++ List.replicate (images - n) 0 ∧
      ((List.range n).foldl (readStep uninit) (initState images file)).vSparseLabel.length =
          images := by
  intro n
  induction n with
  | zero => intro _; simp [initState]
  | succ n ih =>
    intro hn
    obtain ⟨h1, h2, h3⟩ := ih (by omega)
    have e3 : images - n = (images - (n + 1)) + 1 := by omega
    rw [List.range_succ, List.foldl_append]
    simp only [List.foldl_cons, List.foldl_nil]
    refine ⟨?_, ?_, ?_⟩
    · show List.set _ n (n % 2 ^ 32) = _
      rw [h1, List.set_append, if_neg (by simp), e3]
      simp only [List.length_range, Nat.sub_self, List.replicate_succ,
        List.set_cons_zero, List.append_assoc, List.singleton_append]
      rw [Nat.mod_eq_of_lt (by omega)]
    · show List.set _ n ((n + 1) % 2 ^ 64 % 2 ^ 32) = _
      rw [h2, List.set_append, if_neg (by simp), e3]
      simp only [List.length_map, List.length_range, Nat.sub_self, List.replicate_succ,
        List.set_cons_zero, List.map_append, List.map_cons, List.map_nil,
        List.append_assoc, List.singleton_append]
      rw [Nat.mod_eq_of_lt (show n + 1 < 2 ^ 64 by omega), Nat.mod_eq_of_lt (by omega)]
    · show (List.set _ n _).length = _
      rw [List.length_set, h3]

/-- Pixel `j` of record `i` in the concatenated pixel blocks. -/
theorem pixels_getElem (file : List Byte) :
    ∀ n, n * (1 + imageSize) ≤ file.length → ∀ i j, i < n → j < imageSize →
      ((List.range n).flatMap (recordPixels file))[i * imageSize + j]? =
        file[i * (1 + imageSize) + 1 + j]? := by
  intro n
  induction n with
  | zero => intro _ i j hi; omega
  | succ n ih =>
    intro hfile i j hi hj
    have e1 : (n + 1) * (1 + imageSize) = n * (1 + imageSize) + 1 + imageSize := by ring
    have hn1 : n * (1 + imageSize) ≤ file.length := by omega
    have hlen := pixels_length file n hn1
    rw [List.range_succ, List.flatMap_append]
    simp only [List.flatMap_cons, List.flatMap_nil, List.append_nil]
    by_cases hin : i < n
    · have hlt : i * imageSize + j < n * imageSize := by
        have : (i + 1) * imageSize ≤ n * imageSize := Nat.mul_le_mul_right _ hin
        have e : (i + 1) * imageSize = i * imageSize + imageSize := by ring
        omega
      rw [List.getElem?_append_left (by rw [hlen]; exact hlt)]
      exact ih hn1 i j hin hj
    · have hieq : i = n := by omega
      subst hieq
      rw [List.getElem?_append_right (by rw [hlen]; omega), hlen]
      unfold recordPixels
      rw [List.getElem?_take_of_lt (by omega), List.getElem?_drop]
      have e : i * (1 + imageSize) + 1 + (i * imageSize + j - i * imageSize) =
          i * (1 + imageSize) + 1 + j := by omega
      rw [e]

/-- Label `i` in the list of labels. -/
theorem labels_getElem (file : List Byte) (n i : Nat) (hi : i < n)
    (hfile : n * (1 + imageSize) ≤ file.length) :
    ((List.range n).map (fun i => (recordLabel file i).val))[i]? =
      (file[i * (1 + imageSize)]?).map Fin.val := by
  rw [List.getElem?_map, List.getElem?_range hi]
  unfold recordLabel
  have hlt : i * (1 + imageSize) < file.length := by
    have : (i + 1) * (1 + imageSize) ≤ n * (1 + imageSize) := Nat.mul_le_mul_right _ hi
    have e : (i + 1) * (1 + imageSize) = i * (1 + imageSize) + 1 + imageSize := by ring
    omega
  simp only [Option.map_some']
  rw [List.getD_eq_getElem?_getD, List.getElem?_eq_getElem hlt]
  rfl

/-- Interleaving the labels and pixel blocks of records `k .. k + n - 1` gives these
records back. -/
theorem interleave_range' (file : List Byte) :
    ∀ n k, (k + n) * (1 + imageSize) ≤ file.length →
      interleave ((List.range' k n).map (fun i => (recordLabel file i).val))
          ((List.range' k n).flatMap (recordPixels file)) =
        (file.drop (k * (1 + imageSize))).take (n * (1 + imageSize)) := by
  intro n
  induction n with
  | zero => intro k _; simp [interleave]
  | succ n ih =>
    intro k hfile
    have e0 : (k + (n + 1)) * (1 + imageSize) = (k + 1 + n) * (1 + imageSize) := by ring
    have e1 : (k + 1 + n) * (1 + imageSize) =
        k * (1 + imageSize) + 1 + imageSize + n * (1 + imageSize) := by ring
    have e2 : (k + 1) * (1 + imageSize) = k * (1 + imageSize) + 1 + imageSize := by ring
    have e3 : (n + 1) * (1 + imageSize) = 1 + (imageSize + n * (1 + imageSize)) := by ring
    have hk : k * (1 + imageSize) < file.length := by omega
    have hpl : (recordPixels file k).length = imageSize :=
      recordPixels_length file k (by omega)
    have ih2 := ih (k + 1) (by omega)
    simp only [List.range'_succ, List.map_cons, List.flatMap_cons, interleave]
    have ht : List.take imageSize (recordPixels file k ++
        (List.range' (k + 1) n).flatMap (recordPixels file)) = recordPixels file k := by
      rw [← hpl, List.take_left]
    have hd : List.drop imageSize (recordPixels file k ++
        (List.range' (k + 1) n).flatMap (recordPixels file)) =
        (List.range' (k + 1) n).flatMap (recordPixels file) := by
      rw [← hpl, List.drop_left]
    rw [ht, hd, ih2, e3, List.take_add, List.take_add, List.drop_drop, List.drop_drop, e2]
    have hlab : (Fin.ofNat (recordLabel file k).val : Byte) = recordLabel file k := by
      apply Fin.ext
      show (recordLabel file k).val % 256 = _
      exact Nat.mod_eq_of_lt (recordLabel file k).isLt
    rw [hlab, List.take_one, List.head?_drop]
    unfold recordLabel recordPixels
    rw [List.getD_eq_getElem?_getD, List.getElem?_eq_getElem hk]
    simp [Nat.add_assoc]

/-- Interleaving what the loop stored gives the first `images` records back. -/
theorem interleave_stateAfter (images : Nat) (file : List Byte)
    (hfile : images * (1 + imageSize) ≤ file.length) :
    interleave (stateAfter images file images).vSparseLabel
        (stateAfter images file images).vData = file.take (images * (1 + imageSize)) := by
  have := interleave_range' file images 0 (by simpa using hfile)
  simp only [stateAfter, Nat.sub_self, Nat.zero_mul, List.replicate_zero, List.append_nil]
  rw [List.range_eq_range']
  simpa using this


/-- A read of `n` bytes stores at most `n` bytes. -/
theorem read_length_le (s : IfStream) (n : Nat) : (s.read n).1.length ≤ n := by
  unfold IfStream.read
  by_cases hg : s.good = true
  · by_cases hn : n ≤ s.rest.length
    · simp [hg, hn]
    · simp only [hg, hn, if_true, if_false]; omega
  · simp [hg]

/-- Storing inside the buffer keeps its length. -/
theorem writeAt_length (buf : List Byte) (pos : Nat) (got : List Byte)
    (h : pos + got.length ≤ buf.length) : (writeAt buf pos got).length = buf.length := by
  unfold writeAt
  simp only [List.length_append, List.length_take, List.length_drop]
  omega

/-- The pixel buffer keeps its length and `pos` advances by `imageSize` per iteration,
whatever the file holds. -/
theorem foldl_readStep_buffer (uninit : Nat → Byte) (images : Nat) (file : List Byte)
    (hsz : images * imageSize < 2 ^ 32) :
    ∀ n, n ≤ images →
      ((List.range n).foldl (readStep uninit) (initState images file)).pos = n * imageSize ∧
      ((List.range n).foldl (readStep uninit) (initState images file)).vData.length =
        images * imageSize := by
  intro n
  induction n with
  | zero =>
    intro _
    simp only [List.range_zero, List.foldl_nil, initState, dataSize, Nat.mod_eq_of_lt hsz,
      List.length_replicate, Nat.zero_mul, and_self]
  | succ n ih =>
    intro hn
    obtain ⟨h1, h2⟩ := ih (by omega)
    have hmul : (n + 1) * imageSize ≤ images * imageSize := Nat.mul_le_mul_right _ hn
    have e2 : (n + 1) * imageSize = n * imageSize + imageSize := by ring
    rw [List.range_succ, List.foldl_append]
    simp only [List.foldl_cons, List.foldl_nil]
    constructor
    · show (_ + imageSize) % 2 ^ 64 = _
      rw [h1, e2, Nat.mod_eq_of_lt (by omega)]
    · show (writeAt _ _ _).length = _
      rw [writeAt_length, h2]
      rw [h1, h2]
      have := read_length_le
        (((List.range n).foldl (readStep uninit) (initState images file)).is.read 1).2 imageSize
      omega

/-- The two files `main` writes are `writeNc` of the two read loops. -/
theorem main_files (uninit : Nat → Byte) (trainingBin testBin : List Byte) :
    main uninit (some trainingBin) (some testBin) =
      { status := 0
        training := some (writeNc training_images (readLoop uninit training_images trainingBin))
        test := some (writeNc test_images (readLoop uninit test_images testBin)) } :=
  rfl

/-- For both splits the `uint32_t` product `images * imageSize` does not wrap. -/
theorem images_bound (images : Nat) (h : images = training_images ∨ images = test_images) :
    images * imageSize < 2 ^ 32 ∧ images < 2 ^ 32 := by
  rcases h with rfl | rfl <;> constructor <;> decide

/-- Claim C3: with `imageSize = 32*32*3` and `images` the number of examples of
either split (49920 for training, 9984 for test), on every input file holding at
least `images` records of `1 + imageSize` bytes the read loop takes record `i` to
start at byte `i * (1 + imageSize)`, with no header or padding: for every
`i < images` the stored label `i` is the value of input byte `i * (1 + imageSize)`,
for every `j < imageSize` the stored pixel byte `i * imageSize + j` is input byte
`i * (1 + imageSize) + 1 + j`, and interleaving each stored label with its pixel
block gives back the first `images * (1 + imageSize)` input bytes. -/
theorem readLoop_record_layout (uninit : Nat → Byte) (images : Nat) (file : List Byte)
    (himages : images = training_images ∨ images = test_images)
    (hfile : images * (1 + imageSize) ≤ file.length) :
    imageSize = 32 * 32 * 3 ∧ training_images = 49920 ∧ test_images = 9984 ∧
    (∀ i, i < images → ∃ b : Byte, file[i * (1 + imageSize)]? = some b ∧
      (readLoop uninit images file).vSparseLabel[i]? = some b.val) ∧
    (∀ i j, i < images → j < imageSize →
      ∃ b : Byte, file[i * (1 + imageSize) + 1 + j]? = some b ∧
        (readLoop uninit images file).vData[i * imageSize + j]? = some b) ∧
    interleave (readLoop uninit images file).vSparseLabel (readLoop uninit images file).vData =
      file.take (images * (1 + imageSize)) := by
  have hsz := (images_bound images himages).1
  have hloop := readLoop_eq uninit images file hsz hfile
  refine ⟨by decide, rfl, rfl, ?_, ?_, ?_⟩
  · intro i hi
    have hlt : i * (1 + imageSize) < file.length := by
      have : (i + 1) * (1 + imageSize) ≤ images * (1 + imageSize) := Nat.mul_le_mul_right _ hi
      have e : (i + 1) * (1 + imageSize) = i * (1 + imageSize) + 1 + imageSize := by ring
      omega
    refine ⟨file[i * (1 + imageSize)], List.getElem?_eq_getElem hlt, ?_⟩
    rw [hloop]
    simp only [stateAfter, Nat.sub_self, List.replicate_zero, List.append_nil]
    rw [labels_getElem file images i hi hfile, List.getElem?_eq_getElem hlt]
    rfl
  · intro i j hi hj
    have hlt : i * (1 + imageSize) + 1 + j < file.length := by
      have : (i + 1) * (1 + imageSize) ≤ images * (1 + imageSize) := Nat.mul_le_mul_right _ hi
      have e : (i + 1) * (1 + imageSize) = i * (1 + imageSize) + 1 + imageSize := by ring
      omega
    refine ⟨file[i * (1 + imageSize) + 1 + j], List.getElem?_eq_getElem hlt, ?_⟩
    rw [hloop]
    simp only [stateAfter, Nat.sub_self, Nat.zero_mul, List.replicate_zero, List.append_nil]
    rw [pixels_getElem file images hfile i j hi hj, List.getElem?_eq_getElem hlt]
  · rw [hloop]
    exact interleave_stateAfter images file hfile

/-- A test file of 9984 records of bytes 7: label 5 is read from byte `5 * 3073`. -/
theorem readLoop_record_layout_witness :
    test_images * (1 + imageSize) ≤
      (List.replicate (test_images * (1 + imageSize)) (7 : Byte)).length ∧
    ∃ b : Byte,
      (List.replicate (test_images * (1 + imageSize)) (7 : Byte))[5 * (1 + imageSize)]? = some b ∧
      (readLoop (fun _ => 0) test_images
        (List.replicate (test_images * (1 + imageSize)) (7 : Byte))).vSparseLabel[5]? =
          some b.val :=
  ⟨by simp, (readLoop_record_layout (fun _ => 0) test_images
      (List.replicate (test_images * (1 + imageSize)) (7 : Byte)) (Or.inr rfl) (by simp)).2.2.2.1
      5 (by decide)⟩


/-- Entry `i` of `0, 1, ..., n - 1`. -/
theorem range_getD (n i : Nat) (hi : i < n) : (List.range n).getD i 0 = i := by
  rw [List.getD_eq_getElem?_getD, List.getElem?_range hi]; rfl

/-- Entry `i` of `1, 2, ..., n`. -/
theorem range_succ_getD (n i : Nat) (hi : i < n) :
    ((List.range n).map (fun i => i + 1)).getD i 0 = i + 1 := by
  rw [List.getD_eq_getElem?_getD, List.getElem?_map, List.getElem?_range hi]; rfl

/-- The start and end vectors after a whole read loop, whatever the file holds. -/
theorem readLoop_ranges (uninit : Nat → Byte) (images : Nat) (file : List Byte)
    (himg : images < 2 ^ 32) :
    (readLoop uninit images file).vSparseLabelStart = List.range images ∧
    (readLoop uninit images file).vSparseLabelEnd = (List.range images).map (fun i => i + 1) ∧
    (readLoop uninit images file).vSparseLabel.length = images := by
  have h := foldl_readStep_ranges uninit images file himg images (le_refl _)
  simpa [readLoop] using h

/-- Claim C4: for either split (`images` examples) and every input file, the three
sparse-label vectors have `images` entries, and for every example `i < images`
`sparseStart[i] = i` and `sparseEnd[i] = i + 1`; so the ranges
`[sparseStart[i], sparseEnd[i])` of different examples are disjoint and an index lies
in one of them exactly when it is below `images`; `sparseIndex[sparseStart[i]]` is the
entry stored for example `i`, which is the label byte of record `i` when the file
holds the `images` records; and these vectors are what is written as `sparseStart1`,
`sparseEnd1` and `sparseIndex1`. -/
theorem sparse_label_ranges (uninit : Nat → Byte) (images : Nat) (file : List Byte)
    (himages : images = training_images ∨ images = test_images) :
    (readLoop uninit images file).vSparseLabelStart.length = images ∧
    (readLoop uninit images file).vSparseLabelEnd.length = images ∧
    (readLoop uninit images file).vSparseLabel.length = images ∧
    (∀ i, i < images →
      (readLoop uninit images file).vSparseLabelStart[i]? = some i ∧
      (readLoop uninit images file).vSparseLabelEnd[i]? = some (i + 1)) ∧
    (∀ i j, i < images → j < images → i ≠ j → ∀ x,
      ¬ ((readLoop uninit images file).vSparseLabelStart.getD i 0 ≤ x ∧
         x < (readLoop uninit images file).vSparseLabelEnd.getD i 0 ∧
         (readLoop uninit images file).vSparseLabelStart.getD j 0 ≤ x ∧
         x < (readLoop uninit images file).vSparseLabelEnd.getD j 0)) ∧
    (∀ x, x < images ↔ ∃ i, i < images ∧
      (readLoop uninit images file).vSparseLabelStart.getD i 0 ≤ x ∧
      x < (readLoop uninit images file).vSparseLabelEnd.getD i 0) ∧
    (∀ i, i < images →
      (readLoop uninit images file).vSparseLabel[
          (readLoop uninit images file).vSparseLabelStart.getD i 0]? =
        (readLoop uninit images file).vSparseLabel[i]?) ∧
    (images * (1 + imageSize) ≤ file.length → ∀ i, i < images →
      ∃ b : Byte, file[i * (1 + imageSize)]? = some b ∧
        (readLoop uninit images file).vSparseLabel[
          (readLoop uninit images file).vSparseLabelStart.getD i 0]? = some b.val) ∧
    (writeNc images (readLoop uninit images file)).vars =
      [("data0", "dataDim0", NcData.ubyte (readLoop uninit images file).vData),
       ("sparseStart1", "examplesDim1",
          NcData.uint (readLoop uninit images file).vSparseLabelStart),
       ("sparseEnd1", "examplesDim1",
          NcData.uint (readLoop uninit images file).vSparseLabelEnd),
       ("sparseIndex1", "sparseDataDim1",
          NcData.uint (readLoop uninit images file).vSparseLabel)] := by
  obtain ⟨hsz, himg⟩ := images_bound images himages
  obtain ⟨hs, he, hl⟩ := readLoop_ranges uninit images file himg
  have hbuf := (foldl_readStep_buffer uninit images file hsz images (le_refl _)).2
  rw [hs, he]
  refine ⟨by simp, by simp, hl, ?_, ?_, ?_, ?_, ?_, ?_⟩
  · intro i hi
    rw [List.getElem?_map, List.getElem?_range hi]
    exact ⟨rfl, rfl⟩
  · intro i j hi hj hij x
    rw [range_getD _ _ hi, range_getD _ _ hj, range_succ_getD _ _ hi, range_succ_getD _ _ hj]
    omega
  · intro x
    constructor
    · intro hx
      exact ⟨x, hx, by rw [range_getD _ _ hx], by rw [range_succ_getD _ _ hx]; omega⟩
    · rintro ⟨i, hi, h1, h2⟩
      rw [range_getD _ _ hi] at h1
      rw [range_succ_getD _ _ hi] at h2
      omega
  · intro i hi
    rw [range_getD _ _ hi]
  · intro hfile i hi
    rw [range_getD _ _ hi]
    have hlt : i * (1 + imageSize) < file.length := by
      have : (i + 1) * (1 + imageSize) ≤ images * (1 + imageSize) := Nat.mul_le_mul_right _ hi
      have e : (i + 1) * (1 + imageSize) = i * (1 + imageSize) + 1 + imageSize := by ring
      omega
    refine ⟨file[i * (1 + imageSize)], List.getElem?_eq_getElem hlt, ?_⟩
    rw [readLoop_eq uninit images file hsz hfile]
    simp only [stateAfter, Nat.sub_self, List.replicate_zero, List.append_nil]
    rw [labels_getElem file images i hi hfile, List.getElem?_eq_getElem hlt]
    rfl
  · have t1 : List.take (dataSize images) (readLoop uninit images file).vData =
        (readLoop uninit images file).vData := by
      apply List.take_of_length_le
      show ((List.range images).foldl (readStep uninit) (initState images file)).vData.length ≤ _
      unfold dataSize
      rw [Nat.mod_eq_of_lt hsz, hbuf]
    have t2 : List.take images (List.range images) = List.range images :=
      List.take_of_length_le (by simp)
    have t3 : List.take images ((List.range images).map (fun i => i + 1)) =
        (List.range images).map (fun i => i + 1) :=
      List.take_of_length_le (by simp)
    have t4 : List.take images (readLoop uninit images file).vSparseLabel =
        (readLoop uninit images file).vSparseLabel :=
      List.take_of_length_le (by rw [hl])
    unfold writeNc
    simp only [hs, he, t1, t2, t3, t4]

/-- The last training example owns the range `[49919, 49920)`, even on an empty file. -/
theorem sparse_label_ranges_witness :
    (readLoop (fun _ => 0) training_images []).vSparseLabelStart[49919]? = some 49919 ∧
    (readLoop (fun _ => 0) training_images []).vSparseLabelEnd[49919]? = some 49920 :=
  (sparse_label_ranges (fun _ => 0) training_images [] (Or.inl rfl)).2.2.2.1 49919 (by decide)

/-- Claim C7: for either split (`images` examples) the dimension `dataDim0` declared
for the input tensor is `images * width0 * height0 * length0` with the attributes
`width0 = 32`, `height0 = 32`, `length0 = 3`; the `uint32_t` products
`width * height`, `width * height * length = 3072` and `images * imageSize` stay below
`2^32`, so none wraps; and the pixel buffer written as `data0` has exactly the declared
length. -/
theorem dataDim0_eq (uninit : Nat → Byte) (images : Nat) (file : List Byte)
    (himages : images = training_images ∨ images = test_images) :
    width = 32 ∧ height = 32 ∧ length = 3 ∧
    width * height < 2 ^ 32 ∧ width * height * length < 2 ^ 32 ∧
    imageSize = width * height * length ∧ width * height * length = 3072 ∧
    images * (width * height * length) < 2 ^ 32 ∧
    dataSize images = images * width * height * length ∧
    (writeNc images (readLoop uninit images file)).atts.lookup "width0" = some (NcAtt.uint 32) ∧
    (writeNc images (readLoop uninit images file)).atts.lookup "height0" = some (NcAtt.uint 32) ∧
    (writeNc images (readLoop uninit images file)).atts.lookup "length0" = some (NcAtt.uint 3) ∧
    (writeNc images (readLoop uninit images file)).dims.lookup "examplesDim0" = some images ∧
    (writeNc images (readLoop uninit images file)).dims.lookup "dataDim0" =
      some (images * width * height * length) ∧
    (readLoop uninit images file).vData.length = images * width * height * length ∧
    (writeNc images (readLoop uninit images file)).vars.lookup "data0" =
      some ("dataDim0", NcData.ubyte (readLoop uninit images file).vData) := by
  obtain ⟨hsz, himg⟩ := images_bound images himages
  have hbuf := (foldl_readStep_buffer uninit images file hsz images (le_refl _)).2
  have hI : imageSize = width * height * length := by decide
  have hD : dataSize images = images * width * height * length := by
    unfold dataSize
    rw [Nat.mod_eq_of_lt hsz, hI]; ring
  have hL : (readLoop uninit images file).vData.length = images * width * height * length := by
    show ((List.range images).foldl (readStep uninit) (initState images file)).vData.length = _
    rw [hbuf, hI]; ring
  refine ⟨rfl, rfl, rfl, by decide, by decide, hI, by decide, ?_, hD, rfl, rfl, rfl, rfl, ?_,
    hL, ?_⟩
  · rw [← hI]; exact hsz
  · rw [← hD]; rfl
  · have : List.take (dataSize images) (readLoop uninit images file).vData =
        (readLoop uninit images file).vData :=
      List.take_of_length_le (by rw [hD, hL])
    rw [← this]; rfl

/-- The two declared dimensions: 49920 * 3072 and 9984 * 3072. -/
theorem dataDim0_eq_witness :
    dataSize training_images = 153354240 ∧ dataSize test_images = 30670848 ∧
    (readLoop (fun _ => 0) training_images []).vData.length = 153354240 := by
  have h1 := dataDim0_eq (fun _ => 0) training_images [] (Or.inl rfl)
  have h2 := dataDim0_eq (fun _ => 0) test_images [] (Or.inr rfl)
  refine ⟨?_, ?_, ?_⟩
  · rw [h1.2.2.2.2.2.2.2.2.1]; decide
  · rw [h2.2.2.2.2.2.2.2.2.1]; decide
  · rw [h1.2.2.2.2.2.2.2.2.2.2.2.2.2.2.1]; decide

end Dparse
